import Mathlib

/-!
Verification development for the dependency & call-graph analysis engine of
the deep-code-reader repository.

The two analysed source files are shallow-embedded here:

* `scripts/analyze_dependencies.py` (`DependencyAnalyzer` and its cycle
  detector / metrics) in namespace `Deps`;
* `scripts/analyze_data_flow.py` (`DataFlowAnalyzer`, `FunctionVisitor`,
  `trace_flow`) in namespace `Flow`.

Python dictionaries (`dict`, `defaultdict(int)`, `defaultdict(list)`,
`defaultdict(set)`) are embedded as insertion-ordered association lists, with
the exact creation/update semantics of the source spelled out in small helper
functions.  Python sets of strings are embedded as duplicate-free lists.  File
parsing (the `ast` module) is an external collaborator: a parsed file is given
to the build functions as its extracted data (module name and import list for
the dependency analyzer, a syntax tree of the relevant node kinds for the data
flow analyzer), exactly the information the Python code consumes.
-/

set_option maxRecDepth 4000

namespace Deps

/-- Characters of the first list are a leading run of the second
(`p.isPrefix s` on character lists, used to embed python `s.startswith(p)`). -/
def isLeading : List Char → List Char → Bool
  | [], _ => true
  | _ :: _, [] => false
  | a :: as, b :: bs => a == b && isLeading as bs

/-- Python `s.startswith(p)`. -/
def pyStartsWith (s p : String) : Bool := isLeading p.data s.data

/-- Characters of python `s.split('.')[0]`: everything before the first dot. -/
def headSegChars : List Char → List Char
  | [] => []
  | c :: cs => if c == '.' then [] else c :: headSegChars cs

/-- Python `s.split('.')[0]`: the leading dotted segment of a name. -/
def headSeg (s : String) : String := String.mk (headSegChars s.data)

/-- `d[k] += 1` on a python `defaultdict(int)` (creates the key at 1 if absent). -/
def bumpCount : List (String × Nat) → String → List (String × Nat)
  | [], k => [(k, 1)]
  | (k', n) :: rest, k =>
      if k' == k then (k', n + 1) :: rest else (k', n) :: bumpCount rest k

/-- `d.get(k, 0)` lookup in a counter dictionary. -/
def lookupCount : List (String × Nat) → String → Nat
  | [], _ => 0
  | (k', n) :: rest, k => if k' == k then n else lookupCount rest k

/-- `d[k].add(v)` on a python `defaultdict(set)`: creates the key with `{v}` if
absent, otherwise inserts `v` into the stored set (no duplicates). -/
def addDep : List (String × List String) → String → String → List (String × List String)
  | [], k, v => [(k, [v])]
  | (k', vs) :: rest, k, v =>
      if k' == k then (k', if vs.contains v then vs else vs ++ [v]) :: rest
      else (k', vs) :: addDep rest k v

/-- `d.get(k, [])` lookup in a dictionary of string lists. -/
def dictGetList : List (String × List String) → String → List String
  | [], _ => []
  | (k', vs) :: rest, k => if k' == k then vs else dictGetList rest k

/-- Accumulator state of a `DependencyAnalyzer` instance: `self.module_deps`
(module name -> set of internal dependencies) and `self.external_deps`
(top-level package name -> usage count), both as created by `__init__`. -/
structure DepState where
  module_deps : List (String × List String)
  ext_deps : List (String × Nat)
  deriving DecidableEq

/-- The state `DependencyAnalyzer.__init__` creates: both dictionaries empty. -/
def initState : DepState := ⟨[], []⟩

/-- `DependencyAnalyzer._is_internal_import`: true iff the import name starts
(string-prefix) with the first dotted segment of some key currently present in
`self.module_deps`. -/
def is_internal_import (module_deps : List (String × List String)) (imp : String) : Bool :=
  module_deps.any (fun p => pyStartsWith imp (headSeg p.1))

/-- Body of the per-import loop in `DependencyAnalyzer.analyze_file`: classify
one import and accumulate it into the analyzer state. -/
def processImport (module_name : String) (st : DepState) (imp : String) : DepState :=
  if is_internal_import st.module_deps imp then
    { st with module_deps := addDep st.module_deps module_name imp }
  else
    { st with ext_deps := bumpCount st.ext_deps (headSeg imp) }

/-- `DependencyAnalyzer.analyze_file` on a successfully parsed file, given the
path-derived module name and the extracted import list (source order). -/
def analyze_file (st : DepState) (module_name : String) (imports : List String) : DepState :=
  imports.foldl (processImport module_name) st

/-- The build loop of `DependencyAnalyzer.analyze`: fold `analyze_file` over
the discovered files (each as module name plus import list), starting from the
analyzer's current state `st`.  The method performs no reset of `st`. -/
def analyze (st : DepState) (files : List (String × List String)) : DepState :=
  files.foldl (fun s f => analyze_file s f.1 f.2) st

/-- One analysis session as the CLI performs it: construct a fresh analyzer
(`__init__`, empty state) and run `analyze` over the discovered files. -/
def runSession (files : List (String × List String)) : DepState :=
  analyze initState files

/-- Number of imports in one file whose top-level segment is `p`. -/
def cntImports (imports : List String) (p : String) : Nat :=
  (imports.filter (fun i => headSeg i == p)).length

/-- Total number of imports across `files` whose top-level segment is `p`:
the external usage count a single fresh build produces for `p`. -/
def freshCount (files : List (String × List String)) (p : String) : Nat :=
  (files.map (fun f => cntImports f.2 p)).sum

/-! ### Metrics (`DependencyAnalyzer.get_dependency_metrics`) -/

/-- `total_internal_deps` in `get_dependency_metrics`:
`sum(len(deps) for deps in self.module_deps.values())`. -/
def total_internal_deps (g : List (String × List String)) : Nat :=
  (g.map (fun p => p.2.length)).sum

/-- `fan_out = {mod: len(deps) for mod, deps in self.module_deps.items()}`. -/
def fan_out (g : List (String × List String)) : List (String × Nat) :=
  g.map (fun p => (p.1, p.2.length))

/-- `fan_in`: a `defaultdict(int)` incremented once for every dependency
occurrence in every module's dependency set. -/
def fan_in (g : List (String × List String)) : List (String × Nat) :=
  g.foldl (fun acc p => p.2.foldl bumpCount acc) []

/-- Sum of the values of a counter dictionary. -/
def sumCounts (l : List (String × Nat)) : Nat := (l.map Prod.snd).sum

/-! ### Cycle detection (`DependencyAnalyzer._detect_circular_dependencies`) -/

/-- `b in self.module_deps.get(a, [])`: the module graph has an edge `a -> b`. -/
def isEdge (g : List (String × List String)) (a b : String) : Bool :=
  (dictGetList g a).contains b

/-- Mutable state of the DFS in `_detect_circular_dependencies`:
`visited` set, `rec_stack` list, accumulated `cycles`. -/
structure DfsState where
  visited : List String
  stack : List String
  cycles : List (List String)

/-- Python `rec_stack[rec_stack.index(d):]`: the suffix of the stack from the
first occurrence of `d` (the stack never holds duplicates). -/
def dropUntil (d : String) : List String → List String
  | [] => []
  | x :: xs => if x == d then x :: xs else dropUntil d xs

/-- The `for dep in self.module_deps.get(module, [])` loop of `dfs`, with the
recursive call abstracted as `dfs`: recurse on unvisited dependencies; emit a
cycle when a dependency sits on the recursion stack; deduplicate literal
repeats of an already emitted cycle. -/
def dfsDeps (dfs : String → DfsState → DfsState) :
    List String → DfsState → DfsState
  | [], s => s
  | d :: ds, s =>
    let s' : DfsState :=
      if s.visited.contains d then
        if s.stack.contains d then
          let c := dropUntil d s.stack ++ [d]
          if s.cycles.contains c then s else ⟨s.visited, s.stack, s.cycles ++ [c]⟩
        else s
      else dfs d s
    dfsDeps dfs ds s'

/-- One call of the inner `dfs(module)` of `_detect_circular_dependencies`:
mark visited, push on the recursion stack, scan the dependency list, pop.
`fuel` bounds the nesting depth of recursive calls; the published entry point
passes more fuel than any run can consume (each nested call marks a
previously unvisited module first), so the fuel never changes the result. -/
def dfsNode (g : List (String × List String)) : Nat → String → DfsState → DfsState
  | 0 => fun _ s => s
  | n + 1 => fun m s =>
    let s1 : DfsState := ⟨m :: s.visited, s.stack ++ [m], s.cycles⟩
    let s2 := dfsDeps (dfsNode g n) (dictGetList g m) s1
    ⟨s2.visited, s2.stack.erase m, s2.cycles⟩

/-- `DependencyAnalyzer._detect_circular_dependencies`: run `dfs` from every
not-yet-visited module key, in dictionary (insertion) order.  The fuel handed
to each root exceeds the number of distinct names in the graph, hence exceeds
any reachable recursion depth. -/
def detect_circular_dependencies (g : List (String × List String)) : List (List String) :=
  let fuel := g.length + (g.map (fun p => p.2.length)).sum + 1
  (g.foldl (fun (s : DfsState) (p : String × List String) =>
      if s.visited.contains p.1 then s else dfsNode g fuel p.1 s)
    ⟨[], [], []⟩).cycles

/-- A reported cycle `[m1, ..., mk, m1]` is valid for graph `g`: it has at
least two entries (`k >= 1`), starts and ends with the same name, and every
consecutive pair is an edge of `g`. -/
def ValidCycle (g : List (String × List String)) (c : List String) : Prop :=
  2 ≤ c.length ∧ c.head? = c.getLast? ∧ List.Chain' (fun a b => isEdge g a b = true) c

/-- Stack invariant of the DFS state: the recursion stack is a path of real
edges, and every stacked module is visited. -/
def StackOk (g : List (String × List String)) (s : DfsState) : Prop :=
  List.Chain' (fun a b => isEdge g a b = true) s.stack ∧ ∀ x ∈ s.stack, x ∈ s.visited

/-- Every accumulated cycle is valid. -/
def CyclesOk (g : List (String × List String)) (s : DfsState) : Prop :=
  ∀ c ∈ s.cycles, ValidCycle g c

end Deps

namespace Flow

/-- Metadata `FunctionVisitor.visit_FunctionDef` stores per function name:
declaring file, parameter names, return annotation text (if any), line number,
decorator texts. -/
structure FuncInfo where
  file : String
  params : List String
  returns : Option String
  line : Nat
  decorators : List String
  deriving DecidableEq

mutual

/-- The fragment of the python syntax tree `FunctionVisitor` reacts to:
function definitions (with the metadata the visitor extracts and the child
nodes `generic_visit` walks), call expressions (with the name the visitor
resolves from an `ast.Name` or `ast.Attribute` callee, `none` for any other
callee shape, plus child nodes), and every other node kind (children only). -/
inductive PyNode where
  | funcdecl (name : String) (params : List String) (returns : Option String)
      (line : Nat) (decorators : List String) (body : PyNodeList)
  | pycall (callee : Option String) (children : PyNodeList)
  | pyother (children : PyNodeList)

/-- A sequence of sibling syntax nodes, visited left to right. -/
inductive PyNodeList where
  | nil
  | cons (hd : PyNode) (tl : PyNodeList)

end

/-- Python `d[k] = v` on a `dict`: replace in place, or append a new key. -/
def dictSet {α : Type} : List (String × α) → String → α → List (String × α)
  | [], k, v => [(k, v)]
  | (k', v') :: rest, k, v =>
      if k' == k then (k', v) :: rest else (k', v') :: dictSet rest k v

/-- Python `d[k].append(v)` on a `defaultdict(list)`. -/
def dictAppend : List (String × List String) → String → String → List (String × List String)
  | [], k, v => [(k, [v])]
  | (k', vs) :: rest, k, v =>
      if k' == k then (k', vs ++ [v]) :: rest else (k', vs) :: dictAppend rest k v

/-- Python `d[k].extend(vs)` on a `defaultdict(list)`. -/
def dictExtend : List (String × List String) → String → List String → List (String × List String)
  | [], k, vs => [(k, vs)]
  | (k', vs') :: rest, k, vs =>
      if k' == k then (k', vs' ++ vs) :: rest else (k', vs') :: dictExtend rest k vs

/-- `dict.get(k)` on the functions table. -/
def lookupFn : List (String × FuncInfo) → String → Option FuncInfo
  | [], _ => none
  | (k', v) :: rest, k => if k' == k then some v else lookupFn rest k

/-- Mutable state of one `FunctionVisitor`: `self.functions`,
`self.call_graph`, `self.current_function`. -/
structure VState where
  functions : List (String × FuncInfo)
  call_graph : List (String × List String)
  current : Option String

mutual

/-- `FunctionVisitor.visit_FunctionDef` / `visit_Call` / `generic_visit` on a
single node.  A function definition stores its metadata (overwriting any
same-named entry), sets `current_function` for the walk of its children and
restores the previous value afterwards.  A call records its resolved callee
name under `current_function` — only when the walk is inside some function —
and then walks its children.  Any other node only walks its children. -/
def visitNode (fname : String) (st : VState) : PyNode → VState
  | .funcdecl name ps ret ln decs body =>
    let st1 : VState :=
      { functions := dictSet st.functions name ⟨fname, ps, ret, ln, decs⟩,
        call_graph := st.call_graph,
        current := some name }
    let st2 := visitList fname st1 body
    { st2 with current := st.current }
  | .pycall co children =>
    let st1 : VState :=
      match st.current, co with
      | some cur, some callee =>
          { st with call_graph := dictAppend st.call_graph cur callee }
      | _, _ => st
    visitList fname st1 children
  | .pyother children => visitList fname st children

/-- Visiting a sibling sequence left to right. -/
def visitList (fname : String) (st : VState) : PyNodeList → VState
  | .nil => st
  | .cons n ns => visitList fname (visitNode fname st n) ns

end

/-- Accumulator state of a `DataFlowAnalyzer` instance: `self.functions` and
`self.call_graph`. -/
structure DFState where
  functions : List (String × FuncInfo)
  call_graph : List (String × List String)

/-- `DataFlowAnalyzer.analyze_file` on a successfully parsed file: run a fresh
`FunctionVisitor` over the tree, then `self.functions.update(...)` and, per
caller, `self.call_graph[caller].extend(callees)`. -/
def analyze_file (st : DFState) (fname : String) (tree : PyNodeList) : DFState :=
  let vs := visitList fname ⟨[], [], none⟩ tree
  { functions := vs.functions.foldl (fun acc p => dictSet acc p.1 p.2) st.functions,
    call_graph := vs.call_graph.foldl (fun acc p => dictExtend acc p.1 p.2) st.call_graph }

/-- The build loop of `DataFlowAnalyzer.analyze` over the discovered files,
starting from the state `__init__` creates. -/
def analyze (files : List (String × PyNodeList)) : DFState :=
  files.foldl (fun st f => analyze_file st f.1 f.2) ⟨[], []⟩

/-! ### Flow tracing (`DataFlowAnalyzer.trace_flow`) -/

/-- The nested result tree `{'function': ..., 'calls': [...]}`. -/
inductive FlowTree where
  | mk (func : String) (calls : List FlowTree)

/-- The `for callee in callees` loop of `_trace_recursive`, with the recursive
call abstracted as `e`: each callee gets a node appended to the parent's
`calls` (before any visited check), then is expanded recursively; the global
`visited` set threads through the whole loop. -/
def expandChildren (e : String → List String → List FlowTree × List String) :
    List String → List String → List FlowTree × List String
  | [], visited => ([], visited)
  | c :: cs, visited =>
    let r := e c visited
    let rest := expandChildren e cs r.2
    (FlowTree.mk c r.1 :: rest.1, rest.2)

/-- Body of `_trace_recursive(func_name, depth, node)` in `trace_flow`: with
`fuel = max_depth - depth`, return the `calls` children built for `func_name`
together with the updated global `visited` set.  When the depth bound is
reached or the name was already visited anywhere in the traversal, no
children are produced and `visited` is unchanged (the name is not marked). -/
def expandNode (g : List (String × List String)) :
    Nat → String → List String → List FlowTree × List String
  | 0 => fun _ visited => ([], visited)
  | n + 1 => fun f visited =>
    if visited.contains f then ([], visited)
    else expandChildren (expandNode g n) (Deps.dictGetList g f) (f :: visited)

/-- `DataFlowAnalyzer.trace_flow(start_function, max_depth)`: the root node is
created unconditionally; its children come from the bounded traversal with an
initially empty `visited` set. -/
def trace_flow (g : List (String × List String)) (start : String) (max_depth : Nat) :
    FlowTree :=
  FlowTree.mk start (expandNode g max_depth start []).1

/-- Instrumentation of the callee loop: names expanded while processing the
given callee list (`ed` instruments the node expansion `e`). -/
def expandedChildren (ed : String → List String → List String)
    (e : String → List String → List FlowTree × List String) :
    List String → List String → List String
  | [], _ => []
  | c :: cs, visited =>
    ed c visited ++ expandedChildren ed e cs (e c visited).2

/-- Instrumentation: the list of function names actually expanded (marked
visited and scanned for callees), in expansion order, during `expandNode`. -/
def expandedNode (g : List (String × List String)) :
    Nat → String → List String → List String
  | 0 => fun _ _ => []
  | n + 1 => fun f visited =>
    if visited.contains f then []
    else f :: expandedChildren (expandedNode g n) (expandNode g n)
      (Deps.dictGetList g f) (f :: visited)

/-- All callee names recorded anywhere in the call graph. -/
def calleeNames (g : List (String × List String)) : List String :=
  (g.map Prod.snd).flatten

/-- Invariant of a `FunctionVisitor` state: every caller key of the call
graph, and the current function if any, is a key of the functions table. -/
def GoodV (st : VState) : Prop :=
  (∀ k ∈ st.call_graph.map Prod.fst, k ∈ st.functions.map Prod.fst) ∧
  ∀ c, st.current = some c → c ∈ st.functions.map Prod.fst

/-- Invariant of a `DataFlowAnalyzer` state: every caller key of the global
call graph is a key of the global functions table. -/
def DFGood (st : DFState) : Prop :=
  ∀ k ∈ st.call_graph.map Prod.fst, k ∈ st.functions.map Prod.fst

/-- Data of one analyzed file in the C10 scenario: the file defines exactly
one function (whose shared bare name is supplied separately), with this
metadata and this body, the body being a flat sequence of simple name calls. -/
structure FileSpec where
  fname : String
  params : List String
  ret : Option String
  line : Nat
  decorators : List String
  callees : List String

/-- Body consisting of one `ast.Call` statement per callee name, in order. -/
def mkCalls : List String → PyNodeList
  | [] => .nil
  | c :: cs => .cons (.pycall (some c) .nil) (mkCalls cs)

/-- The parsed file of a `FileSpec`: its name and a tree whose only top-level
statement defines the function `f` with the given metadata and body. -/
def fileOf (f : String) (sp : FileSpec) : String × PyNodeList :=
  (sp.fname, .cons (.funcdecl f sp.params sp.ret sp.line sp.decorators
    (mkCalls sp.callees)) .nil)

/-- The functions-table entry `visit_FunctionDef` stores for a `FileSpec`. -/
def toInfo (sp : FileSpec) : FuncInfo :=
  ⟨sp.fname, sp.params, sp.ret, sp.line, sp.decorators⟩

end Flow

namespace Deps

/-! ### Helper lemmas: the build phase starting from an empty `module_deps` -/

theorem lookupCount_bump (l : List (String × Nat)) (k j : String) :
    lookupCount (bumpCount l k) j = lookupCount l j + (if k == j then 1 else 0) := by
  induction l with
  | nil =>
      by_cases h : k = j <;> simp [bumpCount, lookupCount, h]
  | cons p rest ih =>
      obtain ⟨k', n⟩ := p
      by_cases h1 : k' = k
      · subst h1
        by_cases h2 : k' = j <;> simp [bumpCount, lookupCount, h2]
      · by_cases h2 : k' = j
        · subst h2
          have : ¬(k' == k) = true := by simpa using h1
          simp [bumpCount, lookupCount, this, h1]
          intro hkj
          exact absurd hkj.symm h1
        · simp [bumpCount, lookupCount, h1, h2, ih]

theorem cntImports_cons (i : String) (is : List String) (p : String) :
    cntImports (i :: is) p = (if headSeg i == p then 1 else 0) + cntImports is p := by
  by_cases h : headSeg i = p <;>
    simp [cntImports, List.filter_cons, h, Nat.add_comm]

theorem analyze_file_empty_mods (imports : List String) (st : DepState)
    (m : String) (h : st.module_deps = []) :
    (analyze_file st m imports).module_deps = [] ∧
      ∀ p, lookupCount (analyze_file st m imports).ext_deps p =
        lookupCount st.ext_deps p + cntImports imports p := by
  induction imports generalizing st with
  | nil => simp [analyze_file, cntImports, h]
  | cons i is ih =>
      have hint : is_internal_import st.module_deps i = false := by
        simp [is_internal_import, h]
      have hstep : analyze_file st m (i :: is) =
          analyze_file { st with ext_deps := bumpCount st.ext_deps (headSeg i) } m is := by
        simp [analyze_file, processImport, hint]
      have ih' := ih { st with ext_deps := bumpCount st.ext_deps (headSeg i) } h
      refine ⟨by rw [hstep]; exact ih'.1, ?_⟩
      intro p
      rw [hstep, ih'.2 p, cntImports_cons]
      simp [lookupCount_bump]
      omega

/-- Core accumulation law of `analyze`: as long as `module_deps` is empty when
the method starts (which `__init__` guarantees and, by this very lemma, every
run preserves), it is still empty afterwards, and the external counter has
grown pointwise by the import tally of the processed files. -/
theorem analyze_empty_mods (files : List (String × List String)) (st : DepState)
    (h : st.module_deps = []) :
    (analyze st files).module_deps = [] ∧
      ∀ p, lookupCount (analyze st files).ext_deps p =
        lookupCount st.ext_deps p + freshCount files p := by
  induction files generalizing st with
  | nil => simp [analyze, freshCount, h]
  | cons f fs ih =>
      have h1 := analyze_file_empty_mods f.2 st f.1 h
      have hstep : analyze st (f :: fs) = analyze (analyze_file st f.1 f.2) fs := rfl
      have ih' := ih (analyze_file st f.1 f.2) h1.1
      refine ⟨by rw [hstep]; exact ih'.1, ?_⟩
      intro p
      rw [hstep, ih'.2 p, h1.2 p]
      simp [freshCount]
      omega

end Deps

namespace Deps

/-! ### Helper lemmas: metrics -/

theorem sumCounts_bump (l : List (String × Nat)) (k : String) :
    sumCounts (bumpCount l k) = sumCounts l + 1 := by
  induction l with
  | nil => simp [bumpCount, sumCounts]
  | cons p rest ih =>
      obtain ⟨k', n⟩ := p
      by_cases h : k' = k <;> simp [bumpCount, sumCounts, h] <;>
        simp [sumCounts] at ih <;> omega

theorem sumCounts_foldl_bump (ds : List String) (acc : List (String × Nat)) :
    sumCounts (ds.foldl bumpCount acc) = sumCounts acc + ds.length := by
  induction ds generalizing acc with
  | nil => simp
  | cons d ds ih => simp [List.foldl_cons, ih, sumCounts_bump]; omega

theorem sumCounts_fan_in_aux (g : List (String × List String))
    (acc : List (String × Nat)) :
    sumCounts (g.foldl (fun a p => p.2.foldl bumpCount a) acc) =
      sumCounts acc + total_internal_deps g := by
  induction g generalizing acc with
  | nil => simp [total_internal_deps]
  | cons p rest ih =>
      simp [List.foldl_cons, ih, sumCounts_foldl_bump, total_internal_deps]
      omega

theorem lookupCount_foldl_bump (ds : List String) (acc : List (String × Nat)) (m : String) :
    lookupCount (ds.foldl bumpCount acc) m = lookupCount acc m + ds.count m := by
  induction ds generalizing acc with
  | nil => simp
  | cons d ds ih =>
      rw [List.foldl_cons, ih, lookupCount_bump]
      by_cases h : d = m <;> simp [h, List.count_cons] <;> omega

theorem lookupCount_fan_in_aux (g : List (String × List String))
    (acc : List (String × Nat)) (m : String) :
    lookupCount (g.foldl (fun a p => p.2.foldl bumpCount a) acc) m =
      lookupCount acc m + (g.map (fun p => p.2.count m)).sum := by
  induction g generalizing acc with
  | nil => simp
  | cons p rest ih =>
      rw [List.foldl_cons, ih, lookupCount_foldl_bump]
      simp
      omega

theorem count_sum_eq_filter_length (g : List (String × List String)) (m : String)
    (h : ∀ p ∈ g, p.2.Nodup) :
    (g.map (fun p => p.2.count m)).sum =
      (g.filter (fun p => p.2.contains m)).length := by
  induction g with
  | nil => simp
  | cons p rest ih =>
      have hp : p.2.Nodup := h p (by simp)
      have hrest := ih (fun q hq => h q (by simp [hq]))
      by_cases hm : m ∈ p.2
      · have hc : p.2.count m = 1 := List.count_eq_one_of_mem hp hm
        simp [List.filter_cons, hc, hrest, hm, Nat.add_comm]
      · have hc : p.2.count m = 0 := List.count_eq_zero.mpr hm
        simp [List.filter_cons, hc, hrest, hm]

end Deps

namespace Deps

/-! ### Helper lemmas: cycle detection -/

theorem dropUntil_eq_append (d : String) (l : List String) :
    ∃ pre, l = pre ++ dropUntil d l := by
  induction l with
  | nil => exact ⟨[], rfl⟩
  | cons x xs ih =>
      by_cases h : x = d
      · subst h
        exact ⟨[], by simp [dropUntil]⟩
      · have hb : ¬(x == d) = true := by simpa using h
        obtain ⟨pre, hpre⟩ := ih
        exact ⟨x :: pre, by simp [dropUntil, hb]; exact hpre⟩

theorem dropUntil_head (d : String) (l : List String) (h : d ∈ l) :
    (dropUntil d l).head? = some d := by
  induction l with
  | nil => simp at h
  | cons x xs ih =>
      by_cases hx : x = d
      · subst hx
        simp [dropUntil]
      · have hb : ¬(x == d) = true := by simpa using hx
        have hmem : d ∈ xs := by
          rcases List.mem_cons.mp h with h' | h'
          · exact absurd h'.symm hx
          · exact h'
        simp [dropUntil, hb, ih hmem]

/-- The chain and closing edge of an emitted cycle: the slice of the recursion
stack from the first occurrence of `d`, with `d` appended, is a valid cycle. -/
theorem emitted_cycle_valid (g : List (String × List String))
    (stk : List String) (d mlast : String)
    (hch : List.Chain' (fun a b => isEdge g a b = true) stk)
    (hlast : stk.getLast? = some mlast)
    (hd : d ∈ stk)
    (hedge : isEdge g mlast d = true) :
    ValidCycle g (dropUntil d stk ++ [d]) := by
  obtain ⟨pre, hpre⟩ := dropUntil_eq_append d stk
  have hhead : (dropUntil d stk).head? = some d := dropUntil_head d stk hd
  have hne : dropUntil d stk ≠ [] := by
    intro h
    rw [h] at hhead
    simp at hhead
  have hchsuf : List.Chain' (fun a b => isEdge g a b = true) (dropUntil d stk) := by
    rw [hpre] at hch
    exact (List.chain'_append.mp hch).2.1
  have hlastsuf : (dropUntil d stk).getLast? = some mlast := by
    rw [hpre, List.getLast?_append_of_ne_nil pre hne] at hlast
    exact hlast
  refine ⟨?_, ?_, ?_⟩
  · have : 1 ≤ (dropUntil d stk).length := by
      cases hlc : dropUntil d stk with
      | nil => exact absurd hlc hne
      | cons a as => simp
    simp only [List.length_append, List.length_cons, List.length_nil]
    omega
  · rw [List.head?_append_of_ne_nil _ hne, hhead]
    simp
  · refine List.chain'_append.mpr ⟨hchsuf, List.chain'_singleton d, ?_⟩
    intro x hx y hy
    simp at hy
    rw [hlastsuf] at hx
    simp at hx
    rw [← hx, ← hy]
    exact hedge

/-- Loop invariant of the dependency scan of `dfs`, parametric in the
recursive call: the scan leaves the recursion stack unchanged, only grows the
visited set, and only appends valid cycles. -/
theorem dfsDeps_spec (g : List (String × List String))
    (dfs : String → DfsState → DfsState)
    (hdfs : ∀ m s, m ∉ s.visited → StackOk g s → CyclesOk g s →
      (∀ l, s.stack.getLast? = some l → isEdge g l m = true) →
      ((dfs m s).stack = s.stack ∧ (∀ x ∈ s.visited, x ∈ (dfs m s).visited) ∧
        CyclesOk g (dfs m s))) :
    ∀ (ds : List String) (s : DfsState) (mlast : String),
      s.stack.getLast? = some mlast → StackOk g s → CyclesOk g s →
      (∀ d ∈ ds, isEdge g mlast d = true) →
      ((dfsDeps dfs ds s).stack = s.stack ∧
        (∀ x ∈ s.visited, x ∈ (dfsDeps dfs ds s).visited) ∧
        CyclesOk g (dfsDeps dfs ds s)) := by
  intro ds
  induction ds with
  | nil => exact fun s mlast _ _ hcyc _ => ⟨rfl, fun x hx => hx, hcyc⟩
  | cons d ds ih =>
      intro s mlast hlast hstk hcyc hds
      by_cases hv : d ∈ s.visited
      · have hvb : s.visited.contains d = true := by simpa using hv
        by_cases hs : d ∈ s.stack
        · have hsb : s.stack.contains d = true := by simpa using hs
          have hvalid : ValidCycle g (dropUntil d s.stack ++ [d]) :=
            emitted_cycle_valid g s.stack d mlast hstk.1 hlast hs
              (hds d (by simp))
          by_cases hdup : (dropUntil d s.stack ++ [d]) ∈ s.cycles
          · have hdupb : s.cycles.contains (dropUntil d s.stack ++ [d]) = true := by
              simpa using hdup
            have hred : dfsDeps dfs (d :: ds) s = dfsDeps dfs ds s := by
              show dfsDeps dfs ds _ = dfsDeps dfs ds s
              simp [hv, hs, hdup]
            rw [hred]
            exact ih s mlast hlast hstk hcyc (fun x hx => hds x (by simp [hx]))
          · have hdupb : s.cycles.contains (dropUntil d s.stack ++ [d]) = false := by
              simpa using hdup
            have hred : dfsDeps dfs (d :: ds) s =
                dfsDeps dfs ds ⟨s.visited, s.stack, s.cycles ++ [dropUntil d s.stack ++ [d]]⟩ := by
              show dfsDeps dfs ds _ = _
              simp [hv, hs, hdup]
            rw [hred]
            have hcyc' : CyclesOk g ⟨s.visited, s.stack,
                s.cycles ++ [dropUntil d s.stack ++ [d]]⟩ := by
              intro c hc
              rcases List.mem_append.mp hc with hc | hc
              · exact hcyc c hc
              · simp at hc
                rw [hc]
                exact hvalid
            exact ih _ mlast hlast hstk hcyc' (fun x hx => hds x (by simp [hx]))
        · have hsb : s.stack.contains d = false := by simpa using hs
          have hred : dfsDeps dfs (d :: ds) s = dfsDeps dfs ds s := by
            show dfsDeps dfs ds _ = dfsDeps dfs ds s
            simp [hv, hs]
          rw [hred]
          exact ih s mlast hlast hstk hcyc (fun x hx => hds x (by simp [hx]))
      · have hvb : s.visited.contains d = false := by simpa using hv
        have hred : dfsDeps dfs (d :: ds) s = dfsDeps dfs ds (dfs d s) := by
          show dfsDeps dfs ds _ = _
          simp [hv]
        have hnode := hdfs d s hv hstk hcyc
          (fun l hl => by rw [hlast] at hl; cases hl; exact hds d (by simp))
        rw [hred]
        have hlast' : (dfs d s).stack.getLast? = some mlast := by rw [hnode.1, hlast]
        have hstk' : StackOk g (dfs d s) := by
          refine ⟨by rw [hnode.1]; exact hstk.1, ?_⟩
          intro x hx
          rw [hnode.1] at hx
          exact hnode.2.1 x (hstk.2 x hx)
        have hrec := ih (dfs d s) mlast hlast' hstk' hnode.2.2
          (fun x hx => hds x (by simp [hx]))
        exact ⟨by rw [hrec.1, hnode.1], fun x hx => hrec.2.1 x (hnode.2.1 x hx),
          hrec.2.2⟩

/-- Node invariant of `dfs`, by induction on the fuel: a call on an unvisited
module whose connection to the stack top is a real edge restores the stack,
only grows the visited set, and only appends valid cycles. -/
theorem dfsNode_spec (g : List (String × List String)) :
    ∀ (n : Nat) (m : String) (s : DfsState), m ∉ s.visited → StackOk g s →
      CyclesOk g s →
      (∀ l, s.stack.getLast? = some l → isEdge g l m = true) →
      ((dfsNode g n m s).stack = s.stack ∧
        (∀ x ∈ s.visited, x ∈ (dfsNode g n m s).visited) ∧
        CyclesOk g (dfsNode g n m s)) := by
  intro n
  induction n with
  | zero => exact fun m s _ _ hcyc _ => ⟨rfl, fun x hx => hx, hcyc⟩
  | succ n ih =>
      intro m s hm hstk hcyc hedge
      have hlast1 : (s.stack ++ [m]).getLast? = some m := by simp
      have hstk1 : StackOk g ⟨m :: s.visited, s.stack ++ [m], s.cycles⟩ := by
        constructor
        · cases hst : s.stack.getLast? with
          | none =>
              have : s.stack = [] := by
                cases hsl : s.stack with
                | nil => rfl
                | cons a as => rw [hsl] at hst; simp at hst
              rw [this]
              simp
          | some l =>
              refine List.chain'_append.mpr ⟨hstk.1, List.chain'_singleton m, ?_⟩
              intro x hx y hy
              simp at hy
              rw [hst] at hx
              simp at hx
              rw [← hx, ← hy]
              exact hedge l hst
        · intro x hx
          rcases List.mem_append.mp hx with hx | hx
          · exact List.mem_cons_of_mem m (hstk.2 x hx)
          · simp at hx
            simp [hx]
      have hds : ∀ d ∈ dictGetList g m, isEdge g m d = true := by
        intro d hd
        simpa [isEdge] using hd
      have hloop := dfsDeps_spec g (dfsNode g n) ih (dictGetList g m)
        ⟨m :: s.visited, s.stack ++ [m], s.cycles⟩ m hlast1 hstk1 hcyc hds
      have hmstack : m ∉ s.stack := fun hms => hm (hstk.2 m hms)
      refine ⟨?_, ?_, hloop.2.2⟩
      · show (dfsDeps (dfsNode g n) (dictGetList g m)
            ⟨m :: s.visited, s.stack ++ [m], s.cycles⟩).stack.erase m = s.stack
        rw [hloop.1]
        show (s.stack ++ [m]).erase m = s.stack
        rw [List.erase_append_right _ hmstack, List.erase_cons_head, List.append_nil]
      · intro x hx
        exact hloop.2.1 x (List.mem_cons_of_mem m hx)

/-- The root loop of `_detect_circular_dependencies` preserves the empty
stack and the validity of all accumulated cycles. -/
theorem detect_fold_spec (g : List (String × List String)) (fuel : Nat) :
    ∀ (ps : List (String × List String)) (s : DfsState), s.stack = [] →
      CyclesOk g s →
      ((ps.foldl (fun (s : DfsState) (p : String × List String) =>
          if s.visited.contains p.1 then s else dfsNode g fuel p.1 s) s).stack = [] ∧
        CyclesOk g (ps.foldl (fun (s : DfsState) (p : String × List String) =>
          if s.visited.contains p.1 then s else dfsNode g fuel p.1 s) s)) := by
  intro ps
  induction ps with
  | nil => exact fun s hs hc => ⟨hs, hc⟩
  | cons p ps ih =>
      intro s hs hc
      rw [List.foldl_cons]
      by_cases hv : s.visited.contains p.1
      · rw [if_pos hv]
        exact ih s hs hc
      · rw [if_neg hv]
        have hm : p.1 ∉ s.visited := by simpa using hv
        have hstk : StackOk g s := ⟨by rw [hs]; simp, by rw [hs]; simp⟩
        have hedge : ∀ l, s.stack.getLast? = some l → isEdge g l p.1 = true := by
          intro l hl
          rw [hs] at hl
          simp at hl
        have hnode := dfsNode_spec g fuel p.1 s hm hstk hc hedge
        exact ih _ (by rw [hnode.1]; exact hs) hnode.2.2

end Deps

namespace Flow

/-! ### Helper lemmas: trace expansion -/

theorem mem_dictGetList_calleeNames (g : List (String × List String))
    (f c : String) (h : c ∈ Deps.dictGetList g f) : c ∈ calleeNames g := by
  induction g with
  | nil => simp [Deps.dictGetList] at h
  | cons p rest ih =>
      by_cases hk : p.1 = f
      · simp [Deps.dictGetList, hk] at h
        exact List.mem_flatten.mpr ⟨p.2, by simp [calleeNames], h⟩
      · have hne : ¬(p.1 == f) = true := by simpa using hk
        simp [Deps.dictGetList, hne] at h
        have := ih h
        simp [calleeNames] at this ⊢
        rcases this with ⟨l, hl, hcl⟩
        exact Or.inr ⟨l, hl, hcl⟩

/-- Combined loop invariant of the callee loop, for any node expander `e`
with instrumentation `ed` enjoying the node-level properties. -/
theorem expandChildren_spec (g : List (String × List String))
    (e : String → List String → List FlowTree × List String)
    (ed : String → List String → List String)
    (heq : ∀ f v, (e f v).2 = (ed f v).reverse ++ v)
    (hnd : ∀ f v, v.Nodup → (e f v).2.Nodup)
    (hmem : ∀ f v x, x ∈ (e f v).2 → x ∈ v ∨ x = f ∨ x ∈ calleeNames g)
    (cs : List String) (v : List String) :
    (expandChildren e cs v).2 = (expandedChildren ed e cs v).reverse ++ v ∧
      (v.Nodup → (expandChildren e cs v).2.Nodup) ∧
      ((∀ c ∈ cs, c ∈ calleeNames g) →
        ∀ x ∈ (expandChildren e cs v).2, x ∈ v ∨ x ∈ calleeNames g) := by
  induction cs generalizing v with
  | nil => exact ⟨by simp [expandChildren, expandedChildren], fun h => h,
      fun _ x hx => Or.inl hx⟩
  | cons c cs ih =>
      have ih' := ih (e c v).2
      refine ⟨?_, ?_, ?_⟩
      · show (expandChildren e cs (e c v).2).2 = _
        rw [ih'.1]
        simp [expandedChildren, List.reverse_append, List.append_assoc, heq c v]
      · intro hv
        exact ih'.2.1 (hnd c v hv)
      · intro hcs x hx
        have hx' := ih'.2.2 (fun d hd => hcs d (by simp [hd])) x hx
        rcases hx' with hx' | hx'
        · rcases hmem c v x hx' with h | h | h
          · exact Or.inl h
          · exact Or.inr (h ▸ hcs c (by simp))
          · exact Or.inr h
        · exact Or.inr hx'

/-- Node-level expansion invariant, by induction on the fuel: the visited set
after an expansion is the reversed list of expanded names prepended to the
incoming visited set; the visited set stays duplicate-free; and every visited
name was already visited, is the expanded name itself, or occurs as a callee
in the call graph. -/
theorem expandNode_spec (g : List (String × List String)) (n : Nat) :
    ∀ f v, (expandNode g n f v).2 = (expandedNode g n f v).reverse ++ v ∧
      (v.Nodup → (expandNode g n f v).2.Nodup) ∧
      (∀ x ∈ (expandNode g n f v).2, x ∈ v ∨ x = f ∨ x ∈ calleeNames g) := by
  induction n with
  | zero =>
      intro f v
      exact ⟨by simp [expandNode, expandedNode], fun h => h, fun x hx => Or.inl hx⟩
  | succ n ih =>
      intro f v
      by_cases hmem0 : f ∈ v
      · have h1 : expandNode g (n + 1) f v = ([], v) := by simp [expandNode, hmem0]
        have h2 : expandedNode g (n + 1) f v = [] := by simp [expandedNode, hmem0]
        rw [h1, h2]
        exact ⟨by simp, fun h => h, fun x hx => Or.inl hx⟩
      · have h1 : expandNode g (n + 1) f v =
            expandChildren (expandNode g n) (Deps.dictGetList g f) (f :: v) := by
          simp [expandNode, hmem0]
        have h2 : expandedNode g (n + 1) f v =
            f :: expandedChildren (expandedNode g n) (expandNode g n)
              (Deps.dictGetList g f) (f :: v) := by
          simp [expandedNode, hmem0]
        have hspec := expandChildren_spec g (expandNode g n) (expandedNode g n)
          (fun f' v' => (ih f' v').1) (fun f' v' => (ih f' v').2.1)
          (fun f' v' x hx => (ih f' v').2.2 x hx)
          (Deps.dictGetList g f) (f :: v)
        rw [h1, h2]
        refine ⟨?_, ?_, ?_⟩
        · rw [hspec.1]
          simp [List.reverse_cons, List.append_assoc]
        · intro hv
          exact hspec.2.1 (by simp [hv, hmem0])
        · intro x hx
          have := hspec.2.2
            (fun c hcmem => mem_dictGetList_calleeNames g f c hcmem) x hx
          rcases this with h | h
          · rcases List.mem_cons.mp h with h | h
            · exact Or.inr (Or.inl h)
            · exact Or.inl h
          · exact Or.inr (Or.inr h)

end Flow

namespace Flow

/-! ### Helper lemmas: visitor dictionaries -/

theorem mem_keys_dictSet {α : Type} (l : List (String × α)) (k j : String) (v : α) :
    (j ∈ (dictSet l k v).map Prod.fst) ↔ j = k ∨ j ∈ l.map Prod.fst := by
  induction l with
  | nil => simp [dictSet]
  | cons p rest ih =>
      by_cases h : p.1 = k
      · obtain ⟨k', v'⟩ := p
        simp at h
        subst h
        simp [dictSet]
      · obtain ⟨k', v'⟩ := p
        simp at h
        have hb : ¬(k' == k) = true := by simpa using h
        simp [dictSet, hb, ih]
        tauto

theorem mem_keys_dictAppend (l : List (String × List String)) (k j v : String) :
    (j ∈ (dictAppend l k v).map Prod.fst) ↔ j = k ∨ j ∈ l.map Prod.fst := by
  induction l with
  | nil => simp [dictAppend]
  | cons p rest ih =>
      obtain ⟨k', vs⟩ := p
      by_cases h : k' = k
      · subst h
        simp [dictAppend]
      · have hb : ¬(k' == k) = true := by simpa using h
        simp [dictAppend, hb, ih]
        tauto

theorem mem_keys_dictExtend (l : List (String × List String)) (k j : String)
    (vs : List String) :
    (j ∈ (dictExtend l k vs).map Prod.fst) ↔ j = k ∨ j ∈ l.map Prod.fst := by
  induction l with
  | nil => simp [dictExtend]
  | cons p rest ih =>
      obtain ⟨k', vs'⟩ := p
      by_cases h : k' = k
      · subst h
        simp [dictExtend]
      · have hb : ¬(k' == k) = true := by simpa using h
        simp [dictExtend, hb, ih]
        tauto

mutual

/-- Walking one node preserves `current_function`, only grows the keys of the
functions table, and preserves the visitor invariant. -/
theorem visitNode_good (fname : String) (st : VState) (n : PyNode) :
    (visitNode fname st n).current = st.current ∧
      (∀ k ∈ st.functions.map Prod.fst,
        k ∈ (visitNode fname st n).functions.map Prod.fst) ∧
      (GoodV st → GoodV (visitNode fname st n)) := by
  cases n with
  | funcdecl name ps ret ln decs body =>
      have hb := visitList_good fname
        ⟨dictSet st.functions name ⟨fname, ps, ret, ln, decs⟩, st.call_graph, some name⟩ body
      refine ⟨rfl, ?_, ?_⟩
      · intro k hk
        exact hb.2.1 k ((mem_keys_dictSet _ _ _ _).mpr (Or.inr hk))
      · intro hg
        have hg1 : GoodV ⟨dictSet st.functions name ⟨fname, ps, ret, ln, decs⟩,
            st.call_graph, some name⟩ := by
          constructor
          · intro k hk
            exact (mem_keys_dictSet _ _ _ _).mpr (Or.inr (hg.1 k hk))
          · intro c hc
            cases hc
            exact (mem_keys_dictSet _ _ _ _).mpr (Or.inl rfl)
        have hg2 := hb.2.2 hg1
        constructor
        · exact hg2.1
        · intro c hc
          have : st.current = some c := hc
          exact hb.2.1 c ((mem_keys_dictSet _ _ _ _).mpr (Or.inr (hg.2 c this)))
  | pycall co children =>
      obtain ⟨fns, cg, cur⟩ := st
      cases cur with
      | none =>
          cases co with
          | none => exact visitList_good fname ⟨fns, cg, none⟩ children
          | some a => exact visitList_good fname ⟨fns, cg, none⟩ children
      | some cur =>
          cases co with
          | none => exact visitList_good fname ⟨fns, cg, some cur⟩ children
          | some callee =>
              have hb := visitList_good fname ⟨fns, dictAppend cg cur callee, some cur⟩ children
              refine ⟨hb.1, hb.2.1, ?_⟩
              intro hg
              refine hb.2.2 ⟨?_, ?_⟩
              · intro k hk
                rcases (mem_keys_dictAppend cg cur k callee).mp hk with h | h
                · exact h ▸ hg.2 cur rfl
                · exact hg.1 k h
              · intro c hc
                cases hc
                exact hg.2 cur rfl
  | pyother children => exact visitList_good fname st children

/-- Walking a node sequence: same three guarantees as `visitNode_good`. -/
theorem visitList_good (fname : String) (st : VState) (ns : PyNodeList) :
    (visitList fname st ns).current = st.current ∧
      (∀ k ∈ st.functions.map Prod.fst,
        k ∈ (visitList fname st ns).functions.map Prod.fst) ∧
      (GoodV st → GoodV (visitList fname st ns)) := by
  cases ns with
  | nil => exact ⟨rfl, fun k hk => hk, fun h => h⟩
  | cons n ns =>
      have h1 := visitNode_good fname st n
      have h2 := visitList_good fname (visitNode fname st n) ns
      exact ⟨h2.1.trans h1.1, fun k hk => h2.2.1 k (h1.2.1 k hk),
        fun hg => h2.2.2 (h1.2.2 hg)⟩

end

theorem keys_foldl_dictSet (entries : List (String × FuncInfo))
    (acc : List (String × FuncInfo)) (j : String) :
    (j ∈ (entries.foldl (fun a p => dictSet a p.1 p.2) acc).map Prod.fst) ↔
      j ∈ acc.map Prod.fst ∨ j ∈ entries.map Prod.fst := by
  induction entries generalizing acc with
  | nil => simp
  | cons p rest ih =>
      rw [List.foldl_cons, ih, mem_keys_dictSet]
      simp
      tauto

theorem keys_foldl_dictExtend (entries : List (String × List String))
    (acc : List (String × List String)) (j : String) :
    (j ∈ (entries.foldl (fun a p => dictExtend a p.1 p.2) acc).map Prod.fst) ↔
      j ∈ acc.map Prod.fst ∨ j ∈ entries.map Prod.fst := by
  induction entries generalizing acc with
  | nil => simp
  | cons p rest ih =>
      rw [List.foldl_cons, ih, mem_keys_dictExtend]
      simp
      tauto

theorem analyze_file_good (st : DFState) (fname : String) (tree : PyNodeList)
    (h : DFGood st) : DFGood (analyze_file st fname tree) := by
  intro k hk
  have hvs := visitList_good fname ⟨[], [], none⟩ tree
  have hgood : GoodV (visitList fname ⟨[], [], none⟩ tree) :=
    hvs.2.2 ⟨by simp, by simp⟩
  have hk' := (keys_foldl_dictExtend _ _ _).mp hk
  rcases hk' with hk' | hk'
  · exact (keys_foldl_dictSet _ _ _).mpr (Or.inl (h k hk'))
  · exact (keys_foldl_dictSet _ _ _).mpr (Or.inr (hgood.1 k hk'))

theorem analyze_good (files : List (String × PyNodeList)) : DFGood (analyze files) := by
  suffices h : ∀ (fs : List (String × PyNodeList)) (st : DFState), DFGood st →
      DFGood (fs.foldl (fun s f => analyze_file s f.1 f.2) st) by
    exact h files ⟨[], []⟩ (by simp [DFGood])
  intro fs
  induction fs with
  | nil => exact fun st h => h
  | cons f fs ih => exact fun st h => ih _ (analyze_file_good st f.1 f.2 h)

end Flow

namespace Flow

/-! ### Helper lemmas: same-named definitions across files (C10 scenario) -/

theorem lookupFn_dictSet (l : List (String × FuncInfo)) (k j : String) (v : FuncInfo) :
    lookupFn (dictSet l k v) j = if k == j then some v else lookupFn l j := by
  induction l with
  | nil => rfl
  | cons p rest ih =>
      obtain ⟨k', v'⟩ := p
      by_cases h1 : k' = k
      · subst h1
        by_cases h2 : k' = j <;> simp [dictSet, lookupFn, h2]
      · have hb : ¬(k' == k) = true := by simpa using h1
        by_cases h2 : k' = j
        · subst h2
          have hkj : ¬(k == k') = true := by
            simp
            intro hkk
            exact absurd hkk.symm h1
          simp [dictSet, lookupFn, hb, hkj]
        · simp [dictSet, lookupFn, hb, h2, ih]

theorem dictGetList_dictExtend (l : List (String × List String)) (k j : String)
    (vs : List String) :
    Deps.dictGetList (dictExtend l k vs) j =
      if k == j then Deps.dictGetList l j ++ vs else Deps.dictGetList l j := by
  induction l with
  | nil =>
      by_cases h : k = j <;> simp [dictExtend, Deps.dictGetList, h]
  | cons p rest ih =>
      obtain ⟨k', vs'⟩ := p
      by_cases h1 : k' = k
      · subst h1
        by_cases h2 : k' = j <;> simp [dictExtend, Deps.dictGetList, h2]
      · have hb : ¬(k' == k) = true := by simpa using h1
        by_cases h2 : k' = j
        · subst h2
          have hkj : ¬(k == k') = true := by
            simp
            intro hkk
            exact absurd hkk.symm h1
          simp [dictExtend, Deps.dictGetList, hb, hkj]
        · simp [dictExtend, Deps.dictGetList, hb, h2, ih]

theorem visit_mkCalls (fname : String) (cs : List String)
    (fns : List (String × FuncInfo)) (cg : List (String × List String))
    (cur : String) :
    visitList fname ⟨fns, cg, some cur⟩ (mkCalls cs) =
      ⟨fns, cs.foldl (fun a c => dictAppend a cur c) cg, some cur⟩ := by
  induction cs generalizing cg with
  | nil => rfl
  | cons c cs ih => exact ih (dictAppend cg cur c)

theorem visit_fileOf (f : String) (sp : FileSpec) :
    visitList sp.fname ⟨[], [], none⟩ (fileOf f sp).2 =
      ⟨[(f, toInfo sp)], sp.callees.foldl (fun a c => dictAppend a f c) [], none⟩ := by
  show ({ visitList sp.fname ⟨[(f, toInfo sp)], [], some f⟩ (mkCalls sp.callees) with
      current := (none : Option String) } : VState) = _
  rw [visit_mkCalls]

theorem foldl_dictAppend_single (cur : String) (cs : List String) (vs0 : List String) :
    cs.foldl (fun a c => dictAppend a cur c) [(cur, vs0)] = [(cur, vs0 ++ cs)] := by
  induction cs generalizing vs0 with
  | nil => simp
  | cons c cs ih =>
      have h1 : dictAppend [(cur, vs0)] cur c = [(cur, vs0 ++ [c])] := by
        simp [dictAppend]
      rw [List.foldl_cons, h1, ih]
      simp

theorem foldl_dictAppend_empty (cur : String) (cs : List String) :
    cs.foldl (fun a c => dictAppend a cur c) [] =
      if cs.isEmpty then [] else [(cur, cs)] := by
  cases cs with
  | nil => rfl
  | cons c cs =>
      have h0 : dictAppend [] cur c = [(cur, [c])] := rfl
      rw [List.foldl_cons, h0, foldl_dictAppend_single]
      simp

theorem analyze_file_fileOf (st : DFState) (f : String) (sp : FileSpec) (j : String) :
    lookupFn (analyze_file st (fileOf f sp).1 (fileOf f sp).2).functions j =
        (if f == j then some (toInfo sp) else lookupFn st.functions j) ∧
      Deps.dictGetList (analyze_file st (fileOf f sp).1 (fileOf f sp).2).call_graph j =
        (if f == j then Deps.dictGetList st.call_graph j ++ sp.callees
         else Deps.dictGetList st.call_graph j) := by
  have hfn : (analyze_file st (fileOf f sp).1 (fileOf f sp).2).functions =
      dictSet st.functions f (toInfo sp) := by
    show (visitList sp.fname ⟨[], [], none⟩ (fileOf f sp).2).functions.foldl
        (fun a p => dictSet a p.1 p.2) st.functions = _
    rw [visit_fileOf]
    rfl
  have hcg : (analyze_file st (fileOf f sp).1 (fileOf f sp).2).call_graph =
      (sp.callees.foldl (fun a c => dictAppend a f c) []).foldl
        (fun a p => dictExtend a p.1 p.2) st.call_graph := by
    show (visitList sp.fname ⟨[], [], none⟩ (fileOf f sp).2).call_graph.foldl
        (fun a p => dictExtend a p.1 p.2) st.call_graph = _
    rw [visit_fileOf]
  refine ⟨by rw [hfn, lookupFn_dictSet], ?_⟩
  rw [hcg, foldl_dictAppend_empty]
  cases hcs : sp.callees with
  | nil => by_cases h : f = j <;> simp [Deps.dictGetList, h]
  | cons c cs =>
      simp only [List.isEmpty_cons, if_false, Bool.false_eq_true]
      show Deps.dictGetList (dictExtend st.call_graph f (c :: cs)) j = _
      rw [dictGetList_dictExtend]

/-- Folding the C10 files appends each file's callee list onto the call-graph
entry of the shared name, in analysis order. -/
theorem fold_fileOf_cg (f : String) (sps : List FileSpec) (st : DFState) :
    Deps.dictGetList ((sps.map (fileOf f)).foldl
        (fun s p => analyze_file s p.1 p.2) st).call_graph f =
      Deps.dictGetList st.call_graph f ++ (sps.map (fun sp => sp.callees)).flatten := by
  induction sps generalizing st with
  | nil => simp
  | cons sp sps ih =>
      rw [List.map_cons, List.foldl_cons, ih]
      have h := (analyze_file_fileOf st f sp f).2
      simp only [beq_self_eq_true, if_true] at h
      rw [h]
      simp

/-- Folding the C10 files overwrites the functions-table entry of the shared
name with the metadata of the most recently analyzed file. -/
theorem fold_fileOf_fn (f : String) (sps : List FileSpec) (e : FileSpec) (st : DFState) :
    lookupFn (((sps ++ [e]).map (fileOf f)).foldl
        (fun s p => analyze_file s p.1 p.2) st).functions f = some (toInfo e) := by
  induction sps generalizing st with
  | nil =>
      simp only [List.nil_append, List.map_cons, List.map_nil, List.foldl_cons,
        List.foldl_nil]
      have h := (analyze_file_fileOf st f e f).1
      simpa using h
  | cons sp sps ih =>
      rw [List.cons_append, List.map_cons, List.foldl_cons]
      exact ih _

end Flow

/-! ## Claim theorems -/

/-- C1 (status: code_bug).  The spec says an import is classified internal iff
its leading segment matches the leading segment of an already observed Module
Node, and external otherwise.  In the code, `_is_internal_import` consults
`self.module_deps.keys()`, but a key is only ever created inside the internal
branch of `analyze_file` — so starting from the state `__init__` creates, no
key can ever be created and every import of every build is classified
external.  First conjunct: after any session `module_deps` is empty.  Second
conjunct: concretely, after file `a.py` (module `a`) is observed, the import
`a` in file `b.py` is still counted as an external package, not recorded as
an internal dependency.  (Exhaustiveness — exactly one of the two classes —
does hold: `processImport` is a two-way `if`.) -/
theorem c1_internal_classification_never_fires :
    (∀ files, (Deps.runSession files).module_deps = []) ∧
      (Deps.runSession [("a", ["json"]), ("b", ["a"])]).module_deps = [] ∧
      Deps.lookupCount (Deps.runSession [("a", ["json"]), ("b", ["a"])]).ext_deps "a" = 1 := by
  refine ⟨fun files => (Deps.analyze_empty_mods files Deps.initState rfl).1, rfl, rfl⟩

/-- C2 (status: confirmed).  For the mutually recursive call graph
`login -> verify_token -> login`, `trace_flow("login", max_depth=5)` returns
the two-level tree `login -> verify_token`, where `verify_token`'s further
expansion to `login` is suppressed: the second occurrence of `login` is a
leaf with no children, because `login` is already in the global visited set. -/
theorem c2_trace_mutual_recursion_example :
    Flow.trace_flow [("login", ["verify_token"]), ("verify_token", ["login"])] "login" 5 =
      Flow.FlowTree.mk "login"
        [Flow.FlowTree.mk "verify_token" [Flow.FlowTree.mk "login" []]] := rfl

/-- C3, counterexample.  Read as a property of the build procedure
`DependencyAnalyzer.analyze` itself, the claim fails: the method never
discards the instance state it accumulates into, so invoking the build twice
over the same unchanged file set (one file `m` importing `os`) yields an
external count of 2 for `os` on the second build versus 1 on the first —
not identical counts. -/
theorem c3_second_build_accumulates :
    Deps.lookupCount
        (Deps.analyze (Deps.runSession [("m", ["os"])]) [("m", ["os"])]).ext_deps "os" = 2 ∧
      Deps.lookupCount (Deps.runSession [("m", ["os"])]).ext_deps "os" = 1 :=
  ⟨rfl, rfl⟩

/-- C3, amended (status: corrected).  `analyze` is deterministic and purely
accumulative: whenever the analyzer's `module_deps` is empty when the method
starts (true for a fresh `__init__` state, and preserved by every run), the
result has empty `module_deps` and its external counter equals the previous
counter plus the pure per-file tally `freshCount`.  Hence two builds from
*freshly initialized* analyzers over equal file sets agree, while re-invoking
`analyze` on the same instance adds the fresh counts onto the prior ones
instead of discarding them. -/
theorem c3_analyze_accumulation_law (files : List (String × List String))
    (st : Deps.DepState) (p : String) (h : st.module_deps = []) :
    (Deps.analyze st files).module_deps = [] ∧
      Deps.lookupCount (Deps.analyze st files).ext_deps p =
        Deps.lookupCount st.ext_deps p + Deps.freshCount files p :=
  ⟨(Deps.analyze_empty_mods files st h).1, (Deps.analyze_empty_mods files st h).2 p⟩

/-- Witness for C3's amended theorem at a concrete dirty state: a prior count
of 1 for `os` plus one fresh occurrence gives 2. -/
theorem c3_analyze_accumulation_law_witness :
    (Deps.analyze ⟨[], [("os", 1)]⟩ [("m", ["os"])]).module_deps = [] ∧
      Deps.lookupCount (Deps.analyze ⟨[], [("os", 1)]⟩ [("m", ["os"])]).ext_deps "os" =
        Deps.lookupCount [("os", 1)] "os" + Deps.freshCount [("m", ["os"])] "os" :=
  c3_analyze_accumulation_law [("m", ["os"])] ⟨[], [("os", 1)]⟩ "os" rfl

/-- C5 (status: confirmed).  For any module dependency graph whose dependency
sets are duplicate-free (as python sets are): the sum of the computed fan-out
values equals `total_internal_deps`, which equals the sum of the computed
fan-in values; moreover each fan-in entry counts exactly the modules whose
dependency set contains the name, matching the spec's definition of fan-in. -/
theorem c5_fan_in_fan_out_consistency (g : List (String × List String))
    (h : ∀ p ∈ g, p.2.Nodup) :
    Deps.sumCounts (Deps.fan_out g) = Deps.total_internal_deps g ∧
      Deps.sumCounts (Deps.fan_in g) = Deps.total_internal_deps g ∧
      ∀ m, Deps.lookupCount (Deps.fan_in g) m =
        (g.filter (fun p => p.2.contains m)).length := by
  refine ⟨?_, ?_, ?_⟩
  · simp [Deps.fan_out, Deps.sumCounts, Deps.total_internal_deps, List.map_map]
    rfl
  · simpa [Deps.fan_in, Deps.sumCounts] using
      Deps.sumCounts_fan_in_aux g []
  · intro m
    have h1 := Deps.lookupCount_fan_in_aux g [] m
    rw [Deps.count_sum_eq_filter_length g m h] at h1
    simpa [Deps.fan_in, Deps.lookupCount] using h1

/-- Witness for C5 on the spec's three-module example extended with a second
edge: `a -> {b, c}`, `b -> {c}`. -/
theorem c5_fan_in_fan_out_consistency_witness :
    Deps.sumCounts (Deps.fan_out [("a", ["b", "c"]), ("b", ["c"])]) =
        Deps.total_internal_deps [("a", ["b", "c"]), ("b", ["c"])] ∧
      Deps.sumCounts (Deps.fan_in [("a", ["b", "c"]), ("b", ["c"])]) =
        Deps.total_internal_deps [("a", ["b", "c"]), ("b", ["c"])] ∧
      Deps.lookupCount (Deps.fan_in [("a", ["b", "c"]), ("b", ["c"])]) "c" =
        (([("a", ["b", "c"]), ("b", ["c"])].filter
          (fun p => p.2.contains "c"))).length := by
  have h := c5_fan_in_fan_out_consistency [("a", ["b", "c"]), ("b", ["c"])] (by decide)
  exact ⟨h.1, h.2.1, h.2.2 "c"⟩

/-- C6 (status: code_bug).  The spec says one Module Node keyed by the file's
path-derived dotted name is created per parsed file, regardless of what the
file imports.  In the code a `module_deps` entry is only created when an
incoming import of the file is classified internal, and (see
`c1_internal_classification_never_fires`) that never happens in a build from
a fresh analyzer: parsing file `a.py` with imports `["json"]` creates no
Module Node at all — `module_deps` stays empty while the external counter
records `json`. -/
theorem c6_no_module_node_created :
    (Deps.runSession [("a", ["json"])]).module_deps = [] ∧
      (Deps.runSession [("a", ["json"])]).ext_deps = [("json", 1)] := ⟨rfl, rfl⟩

/-- C7, counterexample.  An empty or nonexistent root yields no discovered
files (`Path.rglob` on a nonexistent directory iterates nothing), and neither
`__init__` nor `analyze` performs any root validation: the session runs to
completion and hands the caller an ordinary empty result — the analyzer has
no error channel at all — rather than surfacing a configuration error before
traversal. -/
theorem c7_empty_root_returns_normal_result :
    Deps.runSession [] = Deps.initState := rfl

/-- C7, amended (status: corrected).  No configuration error is raised for an
empty or nonexistent root: the whole pipeline simply runs on zero files and
produces the empty result document (no modules, no external packages, no
cycles, zero internal dependencies). -/
theorem c7_empty_root_full_pipeline_empty :
    (Deps.runSession []).module_deps = [] ∧
      (Deps.runSession []).ext_deps = [] ∧
      Deps.detect_circular_dependencies (Deps.runSession []).module_deps = [] ∧
      Deps.total_internal_deps (Deps.runSession []).module_deps = 0 :=
  ⟨rfl, rfl, rfl, rfl⟩

/-- C8 (status: confirmed).  `trace_flow` is a total function of the call
graph, the start name and the depth bound (it is defined by structural
recursion on the bound here, mirroring the `depth >= max_depth` cutoff of the
source, and the global visited set cuts every revisit), so it terminates on
every call graph — cyclic ones included.  Quantitatively: the list of node
expansions performed during `trace(call_graph, start, max_depth)` contains no
name twice (at most one expansion per distinct function name), and its length
is bounded by the number of distinct function names available (the start name
together with the distinct callee names of the graph). -/
theorem c8_trace_expansion_bound (g : List (String × List String))
    (f : String) (d : Nat) :
    (Flow.expandedNode g d f []).Nodup ∧
      (Flow.expandedNode g d f []).length ≤
        ((f :: Flow.calleeNames g).dedup).length := by
  have hspec := Flow.expandNode_spec g d f []
  have hvis : (Flow.expandNode g d f []).2 = (Flow.expandedNode g d f []).reverse := by
    simpa using hspec.1
  have hnd : (Flow.expandedNode g d f []).Nodup := by
    have := hspec.2.1 List.nodup_nil
    rw [hvis] at this
    exact List.nodup_reverse.mp this
  have hsub : Flow.expandedNode g d f [] ⊆ f :: Flow.calleeNames g := by
    intro x hx
    have hx' : x ∈ (Flow.expandNode g d f []).2 := by
      rw [hvis]
      simpa using hx
    rcases hspec.2.2 x hx' with h | h | h
    · simp at h
    · simp [h]
    · simp [h]
  refine ⟨hnd, ?_⟩
  have h2 : Flow.expandedNode g d f [] ⊆ (f :: Flow.calleeNames g).dedup :=
    fun x hx => List.mem_dedup.mpr (hsub hx)
  exact (hnd.subperm h2).length_le

/-- C9 (status: confirmed).  First conjunct: after analyzing any file list,
every caller key of the built call graph is the name of a function recorded
in the functions table.  Second conjunct: a call expression visited while
`current_function` is unset (lexically outside every function definition,
i.e. at module top level) records no call edge — visiting it is exactly
visiting its children. -/
theorem c9_callers_are_recorded_functions :
    (∀ files, ∀ k ∈ (Flow.analyze files).call_graph.map Prod.fst,
        k ∈ (Flow.analyze files).functions.map Prod.fst) ∧
      (∀ (fname : String) (fns : List (String × Flow.FuncInfo))
        (cg : List (String × List String)) (co : Option String)
        (ch : Flow.PyNodeList),
        Flow.visitNode fname ⟨fns, cg, none⟩ (.pycall co ch) =
          Flow.visitList fname ⟨fns, cg, none⟩ ch) := by
  constructor
  · exact fun files => Flow.analyze_good files
  · intro fname fns cg co ch
    cases co <;> rfl

/-- Witness for C9: a file defining `g`, whose body calls `h`, makes `g` a
caller key; the theorem then places `g` among the recorded functions, and the
top-level-call conjunct is applied at a concrete module-level call of `h`. -/
theorem c9_callers_are_recorded_functions_witness :
    ("g" ∈ (Flow.analyze [("f.py",
          .cons (.funcdecl "g" [] none 1 []
            (.cons (.pycall (some "h") .nil) .nil)) .nil)]).functions.map Prod.fst) ∧
      Flow.visitNode "f.py" ⟨[], [], none⟩ (.pycall (some "h") .nil) =
        Flow.visitList "f.py" ⟨[], [], none⟩ .nil :=
  ⟨c9_callers_are_recorded_functions.1
      [("f.py", .cons (.funcdecl "g" [] none 1 []
        (.cons (.pycall (some "h") .nil) .nil)) .nil)] "g" (by decide),
    c9_callers_are_recorded_functions.2 "f.py" [] [] (some "h") .nil⟩

/-- C10 (status: confirmed).  When several analyzed files (here: any nonempty
sequence, described by `FileSpec`s) each define a function with the same bare
name `f`, the final functions table holds exactly the metadata (file, params,
returns, line, decorators) of the definition from the most recently analyzed
file, while the call-graph entry for `f` is the concatenation, in analysis
order, of the callee lists of all the same-named definitions. -/
theorem c10_duplicate_name_merge (f : String) (sps : List Flow.FileSpec)
    (e : Flow.FileSpec) :
    Flow.lookupFn (Flow.analyze ((sps ++ [e]).map (Flow.fileOf f))).functions f =
        some (Flow.toInfo e) ∧
      Deps.dictGetList (Flow.analyze ((sps ++ [e]).map (Flow.fileOf f))).call_graph f =
        ((sps ++ [e]).map (fun sp => sp.callees)).flatten := by
  constructor
  · exact Flow.fold_fileOf_fn f sps e ⟨[], []⟩
  · have h := Flow.fold_fileOf_cg f (sps ++ [e]) ⟨[], []⟩
    show Deps.dictGetList (((sps ++ [e]).map (Flow.fileOf f)).foldl
        (fun s p => Flow.analyze_file s p.1 p.2) ⟨[], []⟩).call_graph f =
      ((sps ++ [e]).map (fun sp => sp.callees)).flatten
    rw [h]
    rfl

/-- C4 (status: confirmed).  Every cycle reported by
`_detect_circular_dependencies`, written `[m1, ..., mk, m1]`, has each
consecutive pair of names a real edge of the module dependency graph, repeats
its first name at the end, and has `k >= 1` — a self-loop yields the
length-1 cycle `[m, m]` (see the witness and the fact that
`detect_circular_dependencies [("m", ["m"])] = [["m", "m"]]`). -/
theorem c4_detected_cycles_valid (g : List (String × List String))
    (c : List String) (hc : c ∈ Deps.detect_circular_dependencies g) :
    Deps.ValidCycle g c := by
  have h := Deps.detect_fold_spec g
    (g.length + (g.map (fun p => p.2.length)).sum + 1) g ⟨[], [], []⟩ rfl
    (fun c hc => by simp at hc)
  exact h.2 c hc

/-- Witness for C4: the two-module cycle `a -> b -> a` is reported as
`[a, b, a]`, and the theorem certifies it as a valid cycle. -/
theorem c4_detected_cycles_valid_witness :
    Deps.ValidCycle [("a", ["b"]), ("b", ["a"])] ["a", "b", "a"] :=
  c4_detected_cycles_valid [("a", ["b"]), ("b", ["a"])] ["a", "b", "a"] (by decide)
